import Mathlib

/-!
Verification of the sakura tree-hashing encoder (`sakura.go`).

The development has two parts:

1. A shallow embedding of the code that is present in the source file:
   `BlockSize.Value` (including Go's fixed-width `int` arithmetic, modelled
   as 64-bit two's-complement wrap-around) and the bodies of
   `Encoder.Final` / `Encoder.Inner` exactly as written (they return a nil
   digest together with a "not implemented" error and interact with none of
   their inputs; the embedding records every interaction with the mode or
   the hop in an explicit event trace, which is empty).

2. A model of the encoder that the specification describes, named inside
   namespace `Spec`.  The source file only declares `Encoder.Final` and
   `Encoder.Inner`; the recursive framing algorithm itself is not in the
   source, so it is modelled from the specification text (node framing,
   caching, kangaroo hopping, interleaving, alignment, and the two error
   kinds).
-/

/-- Byte strings are lists of naturals; each entry stands for one byte. -/
abbrev Bytes := List Nat

/-- `BlockSize` from the source: a mantissa and exponent pair (both `uint8`
in Go, modelled as `Nat` and constrained to `< 256` in the theorems). -/
structure BlockSize where
  Mantissa : Nat
  Exponent : Nat
deriving DecidableEq

/-- Interpretation of a natural number as a Go 64-bit signed `int`:
reduce modulo `2^64` and read the result as two's complement. -/
def toInt64 (n : Nat) : Int :=
  let r : Nat := n % 2 ^ 64
  if r < 2 ^ 63 then (r : Int) else (r : Int) - 2 ^ 64

/-- `BlockSize.Value` from the source:
`1 << bs.Exponent * (2*int(bs.Mantissa) + 1)` on Go `int`.  `<<` and `*`
share precedence and associate left, so this is `(1 << E) * (2*M + 1)`;
the shift and the product wrap modulo `2^64` and the result is read as a
signed 64-bit integer. -/
def BlockSize.Value (bs : BlockSize) : Int :=
  toInt64 (2 ^ bs.Exponent * (2 * bs.Mantissa + 1))

/-- Events an encoder call could perform on its collaborators: requesting a
fresh hash from the mode's factory, reading bytes from a message hop,
accessing a chaining hop's children, or storing a chaining value. -/
inductive GoEvent where
  | hashNew
  | sourceRead
  | childAccess
  | setChainingValue
deriving DecidableEq

/-- Result of one `Final`/`Inner` call as the Go signature exposes it
(`hash []byte, err error`), together with the trace of events the call
performed on the mode and the hop. -/
structure GoResult where
  hash : Option Bytes
  err : Option String
  trace : List GoEvent
deriving DecidableEq

/-- `HashingMode` from the source.  The base-hash factory `func() hash.Hash`
is kept abstract in the type parameter `H`. -/
structure HashingMode (H : Type) where
  Hash : Unit → H
  Kangaroo : Bool
  Alignment : Nat
  Interleave : BlockSize

/-- `Encoder` from the source: wraps one `HashingMode`. -/
structure Encoder (H : Type) where
  mode : HashingMode H

/-- `New` from the source. -/
def New {H : Type} (mode : HashingMode H) : Encoder H :=
  ⟨mode⟩

/-- `Encoder.Final` exactly as the source writes it:
`return nil, errors.New("not implemented")`.  The body touches neither the
mode nor the hop, so the event trace is empty. -/
def Encoder.Final {H T : Type} (_e : Encoder H) (_hop : T) : GoResult :=
  ⟨none, some "not implemented", []⟩

/-- `Encoder.Inner` exactly as the source writes it:
`return nil, errors.New("not implemented")`. -/
def Encoder.Inner {H T : Type} (_e : Encoder H) (_hop : T) : GoResult :=
  ⟨none, some "not implemented", []⟩

namespace Spec

mutual
/-- Modelled from the spec: the hop-tree data model of §3.  The source only
declares the `Hop` / `ChainingHop` / `MessageHop` interfaces; the concrete
tree is modelled as the tagged sum the spec's design notes ask for.  A
chaining hop has a cache slot and children; a message hop has a cache slot
and a finite byte stream (`none` models a stream whose read fails). -/
inductive Hop where
  | chaining (cache : Option Bytes) (children : HopList)
  | message (cache : Option Bytes) (stream : Option Bytes)
/-- A list of hops, mutually inductive with `Hop`. -/
inductive HopList where
  | nil
  | cons (head : Hop) (tail : HopList)
end

/-- Number of children in a child list. -/
def HopList.length : HopList → Nat
  | .nil => 0
  | .cons _ t => t.length + 1

/-- The cache slot of a hop (`ChainingValue()` in the source interface). -/
def cacheOf : Hop → Option Bytes
  | .chaining c _ => c
  | .message c _ => c

/-- Store a chaining value in the cache slot (`SetChainingValue`). -/
def setCache : Hop → Bytes → Hop
  | .chaining _ cs, d => .chaining (some d) cs
  | .message _ s, d => .message (some d) s

/-- Modelled from the spec: the two error kinds of §7; the source never
defines them. -/
inductive EncErr where
  | sourceReadFailed
  | hashFactoryFailed
deriving DecidableEq

/-- Modelled from the spec: the `HashingMode` configuration as the missing
implementation consumes it.  The base-hash factory together with one
accumulator use per node is collapsed into one function from the framed
byte string to the digest; `none` models a factory or accumulator
failure. -/
structure Mode where
  Hash : Bytes → Option Bytes
  Kangaroo : Bool
  Alignment : Nat
  Interleave : BlockSize

/-- The one-byte frame marker of §4.2 step 1d: `0x01` for the root of a
`Final` call, `0x00` otherwise. -/
def markerByte (fin : Bool) : Nat :=
  if fin then 1 else 0

/-- The fixed-width degree field of a chaining-hop frame: the degree as an
unsigned 64-bit little-endian byte string. -/
def degreeBytes (d : Nat) : Bytes :=
  [d % 256, d / 256 % 256, d / 256 ^ 2 % 256, d / 256 ^ 3 % 256,
   d / 256 ^ 4 % 256, d / 256 ^ 5 % 256, d / 256 ^ 6 % 256, d / 256 ^ 7 % 256]

/-- Alignment (§4.2 step 3): when the mode's alignment is non-zero the
assembled content is right-padded with zero bytes to the next multiple of
the alignment. -/
def align (a : Nat) (b : Bytes) : Bytes :=
  if a = 0 then b else b ++ List.replicate ((a - b.length % a) % a) 0

/-- Total length of a list of byte strings. -/
def totalLen (cs : List Bytes) : Nat :=
  (cs.map List.length).sum

/-- One fuelled pass of round-robin interleaving (§4.2 step 1c): take a
chunk of `v` bytes from every not-yet-exhausted contribution, in order,
and repeat on the remainders.  The fuel is always instantiated with the
total number of bytes, which bounds the number of rounds when `v > 0`. -/
def rrAux (v : Nat) : Nat → List Bytes → Bytes
  | 0, _ => []
  | fuel + 1, cs =>
    match cs.filter (fun c => !c.isEmpty) with
    | [] => []
    | act => (act.map (fun c => c.take v)).flatten ++ rrAux v fuel (act.map (fun c => c.drop v))

/-- Round-robin interleaving of several byte contributions in chunks of
`v` bytes; short final chunks are taken as-is, exhausted contributions are
skipped. -/
def roundRobin (v : Nat) (cs : List Bytes) : Bytes :=
  rrAux v (totalLen cs) cs

/-- Interleaving is active (§4.2 step 1c) when the mode's interleave block
size has positive value and more than one child contribution remains after
kangaroo elision.  The block-size value is the source's
`BlockSize.Value`. -/
def interleaveActive (m : Mode) (n : Nat) : Bool :=
  decide (0 < m.Interleave.Value) && decide (1 < n)

/-- The body of a chaining-hop frame: the child contributions, interleaved
round-robin when interleaving is active and plainly concatenated
otherwise. -/
def mkBody (m : Mode) (cs : List Bytes) : Bytes :=
  if interleaveActive m cs.length then roundRobin m.Interleave.Value.toNat cs else cs.flatten

/-- The interleave field of a chaining-hop frame: when interleaving is
active the active block size is embedded verbatim as its two bytes
(§4.1), otherwise the field is absent. -/
def mkIlField (m : Mode) (n : Nat) : Bytes :=
  if interleaveActive m n then [m.Interleave.Mantissa, m.Interleave.Exponent] else []

mutual

/-- Modelled from the spec: the pre-marker content of a chaining hop with
the given children (§4.2 step 1), missing from the source.  Resolves every
child in order (step 1a), applies kangaroo splicing to the first child when
the mode asks for it (step 1b), interleaves or concatenates the remaining
contributions (step 1c) and appends the degree field and, when interleaving
is active, the interleave block size (step 1d).  Returns the content
together with the children as updated by cache writes. -/
def chainPre (m : Mode) (cs : HopList) : Except EncErr (Bytes × HopList) :=
  match cs with
  | .nil => .ok (mkBody m [] ++ degreeBytes 0 ++ mkIlField m 0, .nil)
  | .cons c0 rest =>
    if m.Kangaroo then
      match spliceOne m c0 with
      | .error e => .error e
      | .ok (h0, c0') =>
        match resolveList m rest with
        | .error e => .error e
        | .ok (bs, rest') =>
          .ok (h0 ++ mkBody m bs ++ degreeBytes (rest.length + 1) ++ mkIlField m bs.length,
               .cons c0' rest')
    else
      match resolveOne m c0 with
      | .error e => .error e
      | .ok (b0, c0') =>
        match resolveList m rest with
        | .error e => .error e
        | .ok (bs, rest') =>
          .ok (mkBody m (b0 :: bs) ++ degreeBytes (rest.length + 1) ++
                 mkIlField m (b0 :: bs).length,
               .cons c0' rest')

/-- Modelled from the spec: kangaroo splicing of a node's first child
(§4.2 step 1b), missing from the source.  The first child is never
independently hashed: a message hop contributes its raw stream bytes and a
chaining hop contributes its own recursively assembled non-final content
(including its frame marker), spliced in place without a hash boundary. -/
def spliceOne (m : Mode) (c : Hop) : Except EncErr (Bytes × Hop) :=
  match c with
  | .message cache s =>
    match s with
    | some b => .ok (b, .message cache (some b))
    | none => .error .sourceReadFailed
  | .chaining cache cs =>
    match chainPre m cs with
    | .error e => .error e
    | .ok (p, cs') => .ok (p ++ [markerByte false], .chaining cache cs')

/-- Modelled from the spec: resolution of one child's contribution (§4.2
step 1a), missing from the source.  A populated cache slot is used as-is;
an uncached chaining child is recursed into exactly as `Inner` does (its
content is hashed and the digest is written to its cache slot); an uncached
message child contributes its raw stream bytes. -/
def resolveOne (m : Mode) (c : Hop) : Except EncErr (Bytes × Hop) :=
  match c with
  | .message (some cv) s => .ok (cv, .message (some cv) s)
  | .chaining (some cv) cs => .ok (cv, .chaining (some cv) cs)
  | .message none s =>
    match s with
    | some b => .ok (b, .message none (some b))
    | none => .error .sourceReadFailed
  | .chaining none cs =>
    match chainPre m cs with
    | .error e => .error e
    | .ok (p, cs') =>
      match m.Hash (align m.Alignment (p ++ [markerByte false])) with
      | some dg => .ok (dg, .chaining (some dg) cs')
      | none => .error .hashFactoryFailed

/-- Modelled from the spec: left-to-right resolution of a child list (§4.2
step 1a), missing from the source.  Returns the contributions in order and
the children as updated by cache writes. -/
def resolveList (m : Mode) (l : HopList) : Except EncErr (List Bytes × HopList) :=
  match l with
  | .nil => .ok ([], .nil)
  | .cons c t =>
    match resolveOne m c with
    | .error e => .error e
    | .ok (b, c') =>
      match resolveList m t with
      | .error e => .error e
      | .ok (bs, t') => .ok (b :: bs, .cons c' t')

end

/-- Modelled from the spec: the content of a hop before the frame marker
(§4.2 steps 1 and 2), missing from the source.  A message hop's content is
its byte stream; a chaining hop's content is `chainPre` of its children.
The root hop's own cache slot is left untouched. -/
def contentPre (m : Mode) (h : Hop) : Except EncErr (Bytes × Hop) :=
  match h with
  | .message cache s =>
    match s with
    | some b => .ok (b, .message cache (some b))
    | none => .error .sourceReadFailed
  | .chaining cache cs =>
    match chainPre m cs with
    | .error e => .error e
    | .ok (p, cs') => .ok (p, .chaining cache cs')

/-- Modelled from the spec: the assembled pre-alignment content of a hop
evaluated with the given finality (§4.2 steps 1, 2 and 1d), missing from
the source: the pre-marker content followed by the one-byte frame
marker. -/
def contentOf (m : Mode) (fin : Bool) (h : Hop) : Except EncErr (Bytes × Hop) :=
  match contentPre m h with
  | .error e => .error e
  | .ok (p, h') => .ok (p ++ [markerByte fin], h')

/-- Modelled from the spec: `Encoder.Final` (§4.2), whose body is missing
from the source.  Assembles the root's content with the final marker,
aligns it, feeds it to one fresh base-hash instance and returns the digest;
the root's own cache slot is never written. -/
def Final (m : Mode) (h : Hop) : Except EncErr (Bytes × Hop) :=
  match contentOf m true h with
  | .error e => .error e
  | .ok (x, h') =>
    match m.Hash (align m.Alignment x) with
    | some dg => .ok (dg, h')
    | none => .error .hashFactoryFailed

/-- Modelled from the spec: `Encoder.Inner` (§4.2), whose body is missing
from the source.  A populated cache slot is returned as-is; otherwise the
non-final content is assembled, aligned and hashed, and the digest is
written to the root's cache slot before being returned. -/
def Inner (m : Mode) (h : Hop) : Except EncErr (Bytes × Hop) :=
  match cacheOf h with
  | some cv => .ok (cv, h)
  | none =>
    match contentOf m false h with
    | .error e => .error e
    | .ok (x, h') =>
      match m.Hash (align m.Alignment x) with
      | some dg => .ok (dg, setCache h' dg)
      | none => .error .hashFactoryFailed

/-- The digest component of a `Final` call. -/
def FinalD (m : Mode) (h : Hop) : Except EncErr Bytes :=
  (Final m h).map Prod.fst

/-- The digest component of an `Inner` call. -/
def InnerD (m : Mode) (h : Hop) : Except EncErr Bytes :=
  (Inner m h).map Prod.fst

/-- A call's result as the Go signature `(hash []byte, err error)` exposes
it: a digest is returned exactly when no error is. -/
def toGo (r : Except EncErr (Bytes × Hop)) : Option Bytes × Option EncErr :=
  match r with
  | .ok (d, _) => (some d, none)
  | .error e => (none, some e)

/-- `Inner` with the Go-shaped result. -/
def innerGo (m : Mode) (h : Hop) : Option Bytes × Option EncErr :=
  toGo (Inner m h)

/-- `Final` with the Go-shaped result. -/
def finalGo (m : Mode) (h : Hop) : Option Bytes × Option EncErr :=
  toGo (Final m h)

/-- The base-hash factory works: hashing any byte string yields a digest. -/
def HashTotal (m : Mode) : Prop :=
  ∀ b : Bytes, (m.Hash b).isSome = true

/-- The base hash never maps two distinct framed inputs to one digest. -/
def HashInj (m : Mode) : Prop :=
  ∀ b1 b2 d : Bytes, m.Hash b1 = some d → m.Hash b2 = some d → b1 = b2

mutual
/-- Every message-hop byte stream in the tree is readable. -/
def streamsOk : Hop → Bool
  | .chaining _ cs => streamsOkL cs
  | .message _ s => s.isSome
/-- Every message-hop byte stream in the child list is readable. -/
def streamsOkL : HopList → Bool
  | .nil => true
  | .cons c t => streamsOk c && streamsOkL t
end

/-- A mode whose base hash returns its input unchanged: a working,
injective stand-in for a concrete base hash in evaluations. -/
def plainMode : Mode :=
  ⟨fun b => some b, false, 0, ⟨0, 64⟩⟩

/-- A mode whose base hash maps every input to the empty digest. -/
def constMode : Mode :=
  ⟨fun _ => some [], false, 0, ⟨0, 64⟩⟩

/-- A message hop holding the bytes "ab". -/
def abHop : Hop :=
  .message none (some [97, 98])

/-- A message hop holding the bytes "cd". -/
def cdHop : Hop :=
  .message none (some [99, 100])

/-- The two-leaf tree of the concrete scenario: a root chaining hop whose
child 0 holds "ab" and whose child 1 holds "cd". -/
def twoLeafRoot : Hop :=
  .chaining none (.cons abHop (.cons cdHop .nil))

/-- A non-empty message hop. -/
def nonemptyMsg : Hop :=
  .message none (some [97])

/-- A message hop whose byte stream fails to read. -/
def badStreamHop : Hop :=
  .message none none

theorem align_len_inj (a : Nat) {b1 b2 : Bytes} (hl : b1.length = b2.length)
    (h : align a b1 = align a b2) : b1 = b2 := by
  unfold align at h
  split at h
  · exact h
  · rw [hl] at h
    exact (List.append_inj h hl).1

theorem resolveList_length (m : Mode) : ∀ (l : HopList) {bs : List Bytes} {l' : HopList},
    resolveList m l = .ok (bs, l') → HopList.length l' = HopList.length l
  | .nil, bs, l', h => by
    simp only [resolveList, Except.ok.injEq, Prod.mk.injEq] at h
    rw [← h.2]
  | .cons c t, bs, l', h => by
    unfold resolveList at h
    split at h
    · exact absurd h (by simp)
    · rename_i b c' hro
      split at h
      · exact absurd h (by simp)
      · rename_i bs2 t' hrl
        simp only [Except.ok.injEq, Prod.mk.injEq] at h
        rw [← h.2]
        simp [HopList.length, resolveList_length m t hrl]

mutual

theorem chainPre_err (m : Mode) : ∀ (cs : HopList) (e : EncErr),
    chainPre m cs = .error e →
    (e = .sourceReadFailed ∧ streamsOkL cs = false) ∨
      (e = .hashFactoryFailed ∧ ¬ HashTotal m)
  | .nil, e, h => by simp [chainPre] at h
  | .cons c0 rest, e, h => by
    unfold chainPre at h
    split at h
    · split at h
      · rename_i hs0
        cases h
        rcases spliceOne_err m c0 e hs0 with ⟨he, hc⟩ | bad
        · exact Or.inl ⟨he, by simp [streamsOkL, hc]⟩
        · exact Or.inr bad
      · rename_i h0 c0' hs0
        split at h
        · rename_i hrl
          cases h
          rcases resolveList_err m rest e hrl with ⟨he, hc⟩ | bad
          · exact Or.inl ⟨he, by simp [streamsOkL, hc]⟩
          · exact Or.inr bad
        · exact absurd h (by simp)
    · split at h
      · rename_i hr0
        cases h
        rcases resolveOne_err m c0 e hr0 with ⟨he, hc⟩ | bad
        · exact Or.inl ⟨he, by simp [streamsOkL, hc]⟩
        · exact Or.inr bad
      · rename_i b0 c0' hr0
        split at h
        · rename_i hrl
          cases h
          rcases resolveList_err m rest e hrl with ⟨he, hc⟩ | bad
          · exact Or.inl ⟨he, by simp [streamsOkL, hc]⟩
          · exact Or.inr bad
        · exact absurd h (by simp)

theorem spliceOne_err (m : Mode) : ∀ (c : Hop) (e : EncErr),
    spliceOne m c = .error e →
    (e = .sourceReadFailed ∧ streamsOk c = false) ∨
      (e = .hashFactoryFailed ∧ ¬ HashTotal m)
  | .message cache s, e, h => by
    unfold spliceOne at h
    split at h
    · exact absurd h (by simp)
    · cases h
      exact Or.inl ⟨rfl, by simp [streamsOk]⟩
  | .chaining cache cs, e, h => by
    unfold spliceOne at h
    split at h
    · rename_i hcp
      cases h
      rcases chainPre_err m cs e hcp with ⟨he, hc⟩ | bad
      · exact Or.inl ⟨he, by simp [streamsOk, hc]⟩
      · exact Or.inr bad
    · exact absurd h (by simp)

theorem resolveOne_err (m : Mode) : ∀ (c : Hop) (e : EncErr),
    resolveOne m c = .error e →
    (e = .sourceReadFailed ∧ streamsOk c = false) ∨
      (e = .hashFactoryFailed ∧ ¬ HashTotal m)
  | .message (some cv) s, e, h => by simp [resolveOne] at h
  | .chaining (some cv) cs, e, h => by simp [resolveOne] at h
  | .message none s, e, h => by
    unfold resolveOne at h
    split at h
    · exact absurd h (by simp)
    · cases h
      exact Or.inl ⟨rfl, by simp [streamsOk]⟩
  | .chaining none cs, e, h => by
    unfold resolveOne at h
    split at h
    · rename_i hcp
      cases h
      rcases chainPre_err m cs e hcp with ⟨he, hc⟩ | bad
      · exact Or.inl ⟨he, by simp [streamsOk, hc]⟩
      · exact Or.inr bad
    · rename_i p cs' hcp
      split at h
      · exact absurd h (by simp)
      · rename_i hhash
        cases h
        refine Or.inr ⟨rfl, fun hT => ?_⟩
        have := hT (align m.Alignment (p ++ [markerByte false]))
        rw [hhash] at this
        simp at this

theorem resolveList_err (m : Mode) : ∀ (l : HopList) (e : EncErr),
    resolveList m l = .error e →
    (e = .sourceReadFailed ∧ streamsOkL l = false) ∨
      (e = .hashFactoryFailed ∧ ¬ HashTotal m)
  | .nil, e, h => by simp [resolveList] at h
  | .cons c t, e, h => by
    unfold resolveList at h
    split at h
    · rename_i hro
      cases h
      rcases resolveOne_err m c e hro with ⟨he, hc⟩ | bad
      · exact Or.inl ⟨he, by simp [streamsOkL, hc]⟩
      · exact Or.inr bad
    · rename_i b c' hro
      split at h
      · rename_i hrl
        cases h
        rcases resolveList_err m t e hrl with ⟨he, hc⟩ | bad
        · exact Or.inl ⟨he, by simp [streamsOkL, hc]⟩
        · exact Or.inr bad
      · exact absurd h (by simp)

end

theorem contentPre_err (m : Mode) : ∀ (h : Hop) (e : EncErr),
    contentPre m h = .error e →
    (e = .sourceReadFailed ∧ streamsOk h = false) ∨
      (e = .hashFactoryFailed ∧ ¬ HashTotal m)
  | .message cache s, e, hc => by
    simp only [contentPre] at hc
    split at hc
    · exact absurd hc (by simp)
    · cases hc
      exact Or.inl ⟨rfl, by simp [streamsOk]⟩
  | .chaining cache cs, e, hc => by
    simp only [contentPre] at hc
    split at hc
    · rename_i hcp
      cases hc
      rcases chainPre_err m cs e hcp with ⟨he, hs⟩ | bad
      · exact Or.inl ⟨he, by simp [streamsOk, hs]⟩
      · exact Or.inr bad
    · exact absurd hc (by simp)

theorem contentOf_err (m : Mode) (fin : Bool) (h : Hop) (e : EncErr)
    (hc : contentOf m fin h = .error e) :
    (e = .sourceReadFailed ∧ streamsOk h = false) ∨
      (e = .hashFactoryFailed ∧ ¬ HashTotal m) := by
  unfold contentOf at hc
  split at hc
  · rename_i hcp
    cases hc
    exact contentPre_err m h e hcp
  · exact absurd hc (by simp)

theorem Inner_err (m : Mode) (h : Hop) (e : EncErr) (hi : Inner m h = .error e) :
    (e = .sourceReadFailed ∧ streamsOk h = false) ∨
      (e = .hashFactoryFailed ∧ ¬ HashTotal m) := by
  unfold Inner at hi
  split at hi
  · exact absurd hi (by simp)
  · split at hi
    · rename_i hco
      cases hi
      exact contentOf_err m false h e hco
    · rename_i x h' hco
      split at hi
      · exact absurd hi (by simp)
      · rename_i hhash
        cases hi
        refine Or.inr ⟨rfl, fun hT => ?_⟩
        have := hT (align m.Alignment x)
        rw [hhash] at this
        simp at this

theorem Final_err (m : Mode) (h : Hop) (e : EncErr) (hf : Final m h = .error e) :
    (e = .sourceReadFailed ∧ streamsOk h = false) ∨
      (e = .hashFactoryFailed ∧ ¬ HashTotal m) := by
  unfold Final at hf
  split at hf
  · rename_i hco
    cases hf
    exact contentOf_err m true h e hco
  · rename_i x h' hco
    split at hf
    · exact absurd hf (by simp)
    · rename_i hhash
      cases hf
      refine Or.inr ⟨rfl, fun hT => ?_⟩
      have := hT (align m.Alignment x)
      rw [hhash] at this
      simp at this

theorem Inner_ok (m : Mode) (h : Hop) (hT : HashTotal m) (hS : streamsOk h = true) :
    ∃ r, Inner m h = .ok r := by
  cases hr : Inner m h with
  | ok r => exact ⟨r, rfl⟩
  | error e =>
    rcases Inner_err m h e hr with ⟨_, hbad⟩ | ⟨_, hbad⟩
    · rw [hS] at hbad
      exact absurd hbad (by simp)
    · exact absurd hT hbad

theorem Final_ok (m : Mode) (h : Hop) (hT : HashTotal m) (hS : streamsOk h = true) :
    ∃ r, Final m h = .ok r := by
  cases hr : Final m h with
  | ok r => exact ⟨r, rfl⟩
  | error e =>
    rcases Final_err m h e hr with ⟨_, hbad⟩ | ⟨_, hbad⟩
    · rw [hS] at hbad
      exact absurd hbad (by simp)
    · exact absurd hT hbad

theorem cacheOf_setCache (h : Hop) (d : Bytes) : cacheOf (setCache h d) = some d := by
  cases h <;> rfl

mutual

theorem chainPre_stable (m : Mode) : ∀ (cs : HopList) (p : Bytes) (cs' : HopList),
    chainPre m cs = .ok (p, cs') → chainPre m cs' = .ok (p, cs')
  | .nil, p, cs', h => by
    simp only [chainPre, Except.ok.injEq, Prod.mk.injEq] at h
    obtain ⟨hp, hc⟩ := h
    subst hp
    subst hc
    rfl
  | .cons c0 rest, p, cs', h => by
    unfold chainPre at h
    split at h
    · rename_i hkg
      split at h
      · exact absurd h (by simp)
      · rename_i h0 c0' hs0
        split at h
        · exact absurd h (by simp)
        · rename_i bs rest' hrl
          simp only [Except.ok.injEq, Prod.mk.injEq] at h
          obtain ⟨hp, hc⟩ := h
          subst hp
          subst hc
          have hs0' := spliceOne_stable m c0 h0 c0' hs0
          have hrl' := resolveList_stable m rest bs rest' hrl
          have hlen := resolveList_length m rest hrl
          simp [chainPre, hkg, hs0', hrl', hlen]
    · rename_i hkg
      split at h
      · exact absurd h (by simp)
      · rename_i b0 c0' hr0
        split at h
        · exact absurd h (by simp)
        · rename_i bs rest' hrl
          simp only [Except.ok.injEq, Prod.mk.injEq] at h
          obtain ⟨hp, hc⟩ := h
          subst hp
          subst hc
          have hr0' := resolveOne_stable m c0 b0 c0' hr0
          have hrl' := resolveList_stable m rest bs rest' hrl
          have hlen := resolveList_length m rest hrl
          simp [chainPre, hkg, hr0', hrl', hlen]

theorem spliceOne_stable (m : Mode) : ∀ (c : Hop) (b : Bytes) (c' : Hop),
    spliceOne m c = .ok (b, c') → spliceOne m c' = .ok (b, c')
  | .message cache s, b, c', h => by
    unfold spliceOne at h
    split at h
    · simp only [Except.ok.injEq, Prod.mk.injEq] at h
      obtain ⟨hb, hc⟩ := h
      subst hb
      subst hc
      rfl
    · exact absurd h (by simp)
  | .chaining cache cs, b, c', h => by
    unfold spliceOne at h
    split at h
    · exact absurd h (by simp)
    · rename_i p cs2 hcp
      simp only [Except.ok.injEq, Prod.mk.injEq] at h
      obtain ⟨hb, hc⟩ := h
      subst hb
      subst hc
      have hcp' := chainPre_stable m cs p cs2 hcp
      simp [spliceOne, hcp']

theorem resolveOne_stable (m : Mode) : ∀ (c : Hop) (b : Bytes) (c' : Hop),
    resolveOne m c = .ok (b, c') → resolveOne m c' = .ok (b, c')
  | .message (some cv) s, b, c', h => by
    simp only [resolveOne, Except.ok.injEq, Prod.mk.injEq] at h
    obtain ⟨hb, hc⟩ := h
    subst hb
    subst hc
    rfl
  | .chaining (some cv) cs, b, c', h => by
    simp only [resolveOne, Except.ok.injEq, Prod.mk.injEq] at h
    obtain ⟨hb, hc⟩ := h
    subst hb
    subst hc
    rfl
  | .message none s, b, c', h => by
    unfold resolveOne at h
    split at h
    · simp only [Except.ok.injEq, Prod.mk.injEq] at h
      obtain ⟨hb, hc⟩ := h
      subst hb
      subst hc
      rfl
    · exact absurd h (by simp)
  | .chaining none cs, b, c', h => by
    unfold resolveOne at h
    split at h
    · exact absurd h (by simp)
    · rename_i p cs2 hcp
      split at h
      · rename_i dg hhash
        simp only [Except.ok.injEq, Prod.mk.injEq] at h
        obtain ⟨hb, hc⟩ := h
        subst hb
        subst hc
        rfl
      · exact absurd h (by simp)

theorem resolveList_stable (m : Mode) : ∀ (l : HopList) (bs : List Bytes) (l' : HopList),
    resolveList m l = .ok (bs, l') → resolveList m l' = .ok (bs, l')
  | .nil, bs, l', h => by
    simp only [resolveList, Except.ok.injEq, Prod.mk.injEq] at h
    obtain ⟨hb, hc⟩ := h
    subst hb
    subst hc
    rfl
  | .cons c t, bs, l', h => by
    unfold resolveList at h
    split at h
    · exact absurd h (by simp)
    · rename_i b c' hro
      split at h
      · exact absurd h (by simp)
      · rename_i bs2 t' hrl
        simp only [Except.ok.injEq, Prod.mk.injEq] at h
        obtain ⟨hb, hc⟩ := h
        subst hb
        subst hc
        have hro' := resolveOne_stable m c b c' hro
        have hrl' := resolveList_stable m t bs2 t' hrl
        simp [resolveList, hro', hrl']

end

theorem contentPre_stable (m : Mode) : ∀ (h : Hop) (x : Bytes) (h' : Hop),
    contentPre m h = .ok (x, h') → contentPre m h' = .ok (x, h')
  | .message cache s, x, h', hc => by
    simp only [contentPre] at hc
    split at hc
    · simp only [Except.ok.injEq, Prod.mk.injEq] at hc
      obtain ⟨hx, hh⟩ := hc
      subst hx
      subst hh
      rfl
    · exact absurd hc (by simp)
  | .chaining cache cs, x, h', hc => by
    simp only [contentPre] at hc
    split at hc
    · exact absurd hc (by simp)
    · rename_i p cs' hcp
      have hst := chainPre_stable m cs p cs' hcp
      simp only [Except.ok.injEq, Prod.mk.injEq] at hc
      obtain ⟨hx, hh⟩ := hc
      subst hx
      subst hh
      simp [contentPre, hst]

theorem contentPre_cache (m : Mode) : ∀ (h : Hop) (x : Bytes) (h' : Hop),
    contentPre m h = .ok (x, h') → cacheOf h' = cacheOf h
  | .message cache s, x, h', hc => by
    simp only [contentPre] at hc
    split at hc
    · simp only [Except.ok.injEq, Prod.mk.injEq] at hc
      rw [← hc.2]
    · exact absurd hc (by simp)
  | .chaining cache cs, x, h', hc => by
    simp only [contentPre] at hc
    split at hc
    · exact absurd hc (by simp)
    · simp only [Except.ok.injEq, Prod.mk.injEq] at hc
      rw [← hc.2]
      rfl

theorem contentOf_eq (m : Mode) (fin : Bool) (h : Hop) :
    contentOf m fin h =
      match contentPre m h with
      | .error e => .error e
      | .ok (p, h') => .ok (p ++ [markerByte fin], h') := rfl

theorem contentOf_stable (m : Mode) (fin : Bool) (h : Hop) (x : Bytes) (h' : Hop)
    (hc : contentOf m fin h = .ok (x, h')) : contentOf m fin h' = .ok (x, h') := by
  rw [contentOf_eq] at hc
  split at hc
  · exact absurd hc (by simp)
  · rename_i p h2 hcp
    simp only [Except.ok.injEq, Prod.mk.injEq] at hc
    obtain ⟨hx, hh⟩ := hc
    subst hx
    subst hh
    rw [contentOf_eq, contentPre_stable m h p h2 hcp]

theorem contentOf_cache (m : Mode) (fin : Bool) (h : Hop) (x : Bytes) (h' : Hop)
    (hc : contentOf m fin h = .ok (x, h')) : cacheOf h' = cacheOf h := by
  rw [contentOf_eq] at hc
  split at hc
  · exact absurd hc (by simp)
  · rename_i p h2 hcp
    simp only [Except.ok.injEq, Prod.mk.injEq] at hc
    rw [← hc.2]
    exact contentPre_cache m h p h2 hcp

theorem Final_eq (m : Mode) (h : Hop) :
    Final m h =
      match contentOf m true h with
      | .error e => .error e
      | .ok (x, h') =>
        match m.Hash (align m.Alignment x) with
        | some dg => .ok (dg, h')
        | none => .error .hashFactoryFailed := rfl

theorem Inner_eq (m : Mode) (h : Hop) :
    Inner m h =
      match cacheOf h with
      | some cv => .ok (cv, h)
      | none =>
        match contentOf m false h with
        | .error e => .error e
        | .ok (x, h') =>
          match m.Hash (align m.Alignment x) with
          | some dg => .ok (dg, setCache h' dg)
          | none => .error .hashFactoryFailed := rfl

theorem Final_cache (m : Mode) (h : Hop) (d : Bytes) (h' : Hop)
    (hf : Final m h = .ok (d, h')) : cacheOf h' = cacheOf h := by
  rw [Final_eq] at hf
  split at hf
  · exact absurd hf (by simp)
  · rename_i x h2 hco
    split at hf
    · simp only [Except.ok.injEq, Prod.mk.injEq] at hf
      rw [← hf.2]
      exact contentOf_cache m true h x h2 hco
    · exact absurd hf (by simp)

theorem Final_stable (m : Mode) (h : Hop) (d : Bytes) (h' : Hop)
    (hf : Final m h = .ok (d, h')) : Final m h' = .ok (d, h') := by
  rw [Final_eq] at hf
  split at hf
  · exact absurd hf (by simp)
  · rename_i x h2 hco
    split at hf
    · rename_i dg hhash
      simp only [Except.ok.injEq, Prod.mk.injEq] at hf
      obtain ⟨hd, hh⟩ := hf
      subst hd
      subst hh
      simp [Final_eq, contentOf_stable m true h x h2 hco, hhash]
    · exact absurd hf (by simp)

theorem Inner_cache (m : Mode) (h : Hop) (d : Bytes) (h' : Hop)
    (hi : Inner m h = .ok (d, h')) : cacheOf h' = some d := by
  rw [Inner_eq] at hi
  split at hi
  · rename_i cv hcv
    simp only [Except.ok.injEq, Prod.mk.injEq] at hi
    rw [← hi.2, hcv, hi.1]
  · split at hi
    · exact absurd hi (by simp)
    · rename_i x h2 hco
      split at hi
      · rename_i dg hhash
        simp only [Except.ok.injEq, Prod.mk.injEq] at hi
        rw [← hi.2, ← hi.1]
        exact cacheOf_setCache h2 dg
      · exact absurd hi (by simp)

theorem Inner_stable (m : Mode) (h : Hop) (d : Bytes) (h' : Hop)
    (hi : Inner m h = .ok (d, h')) : Inner m h' = .ok (d, h') := by
  simp [Inner_eq, Inner_cache m h d h' hi]

theorem FinalD_eq (m : Mode) (h : Hop) :
    FinalD m h =
      match contentPre m h with
      | .error e => .error e
      | .ok (p, _) =>
        match m.Hash (align m.Alignment (p ++ [markerByte true])) with
        | some dg => .ok dg
        | none => .error .hashFactoryFailed := by
  unfold FinalD Final contentOf
  cases contentPre m h with
  | error e => rfl
  | ok pr =>
    obtain ⟨p, h2⟩ := pr
    dsimp only
    cases m.Hash (align m.Alignment (p ++ [markerByte true])) <;> rfl

theorem InnerD_eq_of_uncached (m : Mode) (h : Hop) (hc : cacheOf h = none) :
    InnerD m h =
      match contentPre m h with
      | .error e => .error e
      | .ok (p, _) =>
        match m.Hash (align m.Alignment (p ++ [markerByte false])) with
        | some dg => .ok dg
        | none => .error .hashFactoryFailed := by
  unfold InnerD Inner contentOf
  rw [hc]
  cases contentPre m h with
  | error e => rfl
  | ok pr =>
    obtain ⟨p, h2⟩ := pr
    dsimp only
    cases m.Hash (align m.Alignment (p ++ [markerByte false])) <;> rfl

end Spec

theorem toInt64_of_lt {n : Nat} (h : n < 2 ^ 63) : toInt64 n = n := by
  unfold toInt64
  have h64 : n % 2 ^ 64 = n := Nat.mod_eq_of_lt (lt_trans h (by norm_num))
  simp only [h64]
  rw [if_pos h]

theorem value_eq_of_fit (bs : BlockSize)
    (hfit : 2 ^ bs.Exponent * (2 * bs.Mantissa + 1) < 2 ^ 63) :
    bs.Value = ((2 ^ bs.Exponent * (2 * bs.Mantissa + 1) : Nat) : Int) := by
  unfold BlockSize.Value
  exact toInt64_of_lt hfit

/-- C3 counterexample: at Mantissa 1, Exponent 64 (both in the `uint8`
range) the source's `Value` wraps around 64-bit `int` arithmetic and
returns `0`, not `2^64 * 3` as the formula in the claim demands. -/
theorem blockSize_value_formula_cex :
    BlockSize.Value ⟨1, 64⟩ = 0 ∧ (0 : Int) ≠ 2 ^ 64 * (2 * 1 + 1) := by
  constructor
  · decide
  · decide

/-- C3 (amended): `Value` returns exactly `2^Exponent * (2*Mantissa + 1)`,
totally and purely, for every `BlockSize` in `uint8` range whose formula
value fits in a 64-bit signed `int`; the boundary instances are
`(Mantissa 0, Exponent 0) = 1` and `(Mantissa 3, Exponent 2) = 28`. -/
theorem blockSize_value_formula (bs : BlockSize)
    (hm : bs.Mantissa < 256) (he : bs.Exponent < 256)
    (hfit : 2 ^ bs.Exponent * (2 * bs.Mantissa + 1) < 2 ^ 63) :
    bs.Value = ((2 ^ bs.Exponent * (2 * bs.Mantissa + 1) : Nat) : Int) ∧
      BlockSize.Value ⟨0, 0⟩ = 1 ∧ BlockSize.Value ⟨3, 2⟩ = 28 :=
  ⟨value_eq_of_fit bs hfit, by decide, by decide⟩

/-- Witness for C3 at Mantissa 3, Exponent 2. -/
theorem blockSize_value_formula_witness :
    BlockSize.Value ⟨3, 2⟩ = ((2 ^ 2 * (2 * 3 + 1) : Nat) : Int) ∧
      BlockSize.Value ⟨0, 0⟩ = 1 ∧ BlockSize.Value ⟨3, 2⟩ = 28 :=
  blockSize_value_formula ⟨3, 2⟩ (by decide) (by decide) (by decide)

/-- C4 counterexample: at Mantissa 0, Exponent 64 (both in `uint8` range)
the source's `Value` returns `0`, which is not positive, refuting
positivity over the whole `uint8 x uint8` domain once the 64-bit
wrap-around the code performs is accounted for. -/
theorem blockSize_value_positive_cex :
    BlockSize.Value ⟨0, 64⟩ = 0 ∧ ¬ (0 < BlockSize.Value ⟨0, 64⟩) := by
  constructor
  · decide
  · decide

/-- C4 (amended): for every `BlockSize` in `uint8` range whose formula
value fits in a 64-bit signed `int`, `Value` is positive and equals
`2^Exponent * (2*Mantissa + 1)`, a power of two times the odd factor
`2*Mantissa + 1`. -/
theorem blockSize_value_pos_odd (bs : BlockSize)
    (hm : bs.Mantissa < 256) (he : bs.Exponent < 256)
    (hfit : 2 ^ bs.Exponent * (2 * bs.Mantissa + 1) < 2 ^ 63) :
    0 < bs.Value ∧
      bs.Value = ((2 ^ bs.Exponent : Nat) : Int) * ((2 * bs.Mantissa + 1 : Nat) : Int) ∧
      (2 * bs.Mantissa + 1) % 2 = 1 := by
  rw [value_eq_of_fit bs hfit]
  refine ⟨?_, ?_, ?_⟩
  · exact_mod_cast Nat.pos_of_ne_zero (by positivity)
  · push_cast
    ring
  · omega

/-- Witness for C4 at Mantissa 0, Exponent 0. -/
theorem blockSize_value_pos_odd_witness :
    0 < BlockSize.Value ⟨0, 0⟩ ∧
      BlockSize.Value ⟨0, 0⟩ = ((2 ^ 0 : Nat) : Int) * ((2 * 0 + 1 : Nat) : Int) ∧
      (2 * 0 + 1) % 2 = 1 :=
  blockSize_value_pos_odd ⟨0, 0⟩ (by decide) (by decide) (by decide)

/-- C10: the `Encoder.Final` and `Encoder.Inner` bodies in the source
return a nil digest and an error without performing any effect on their
inputs: the event trace of a call is empty, so the base-hash factory is
never invoked, no message bytes are read, no children are enumerated, and
no chaining value is ever stored. -/
theorem encoder_stub_no_effects {H T : Type} (e : Encoder H) (hop : T) :
    (e.Final hop).trace = [] ∧ (e.Inner hop).trace = [] :=
  ⟨rfl, rfl⟩

namespace Spec

/-- C1: for a root chaining hop of degree 2 whose child 0 is the message
hop "ab" and child 1 the message hop "cd", under a mode with kangaroo off,
alignment 0 and an interleave block size of value 0, `Final` returns
exactly the digest of the byte string "ab" ++ "cd" ++ degree 2 ++ final
marker 0x01 under the configured base hash. -/
theorem final_concrete_two_leaves (m : Mode)
    (hk : m.Kangaroo = false) (ha : m.Alignment = 0)
    (hiv : m.Interleave.Value = 0) (d : Bytes)
    (hd : m.Hash ([97, 98] ++ [99, 100] ++ degreeBytes 2 ++ [markerByte true]) = some d) :
    FinalD m twoLeafRoot = .ok d := by
  rw [FinalD_eq]
  have hil : interleaveActive m 2 = false := by
    simp [interleaveActive, hiv]
  have hcp : contentPre m twoLeafRoot =
      .ok ([97, 98, 99, 100, 2, 0, 0, 0, 0, 0, 0, 0], twoLeafRoot) := by
    simp [contentPre, twoLeafRoot, abHop, cdHop, chainPre, hk, resolveOne, resolveList,
          mkBody, mkIlField, hil, degreeBytes, HopList.length]
  rw [hcp]
  dsimp only
  have hal : align m.Alignment ([97, 98, 99, 100, 2, 0, 0, 0, 0, 0, 0, 0] ++ [markerByte true]) =
      [97, 98] ++ [99, 100] ++ degreeBytes 2 ++ [markerByte true] := by
    rw [ha]
    simp [align, degreeBytes]
  rw [hal, hd]

/-- Witness for C1 at a concrete working base hash. -/
theorem final_concrete_two_leaves_witness :
    FinalD plainMode twoLeafRoot = .ok [97, 98, 99, 100, 2, 0, 0, 0, 0, 0, 0, 0, 1] :=
  final_concrete_two_leaves plainMode rfl rfl (by decide) _ rfl

/-- C2: on every hop tree whose base hash works on every input and whose
message-hop byte streams are all readable, `Inner` and `Final` return a
non-nil digest and a nil error. -/
theorem inner_final_total (m : Mode) (h : Hop)
    (hT : HashTotal m) (hS : streamsOk h = true) :
    (∃ d, innerGo m h = (some d, none)) ∧ (∃ d, finalGo m h = (some d, none)) := by
  obtain ⟨⟨d1, h1⟩, hi⟩ := Inner_ok m h hT hS
  obtain ⟨⟨d2, h2⟩, hf⟩ := Final_ok m h hT hS
  refine ⟨⟨d1, ?_⟩, ⟨d2, ?_⟩⟩
  · unfold innerGo toGo
    rw [hi]
  · unfold finalGo toGo
    rw [hf]

/-- Witness for C2 on a one-leaf tree with a working base hash. -/
theorem inner_final_total_witness :
    (∃ d, innerGo plainMode nonemptyMsg = (some d, none)) ∧
      (∃ d, finalGo plainMode nonemptyMsg = (some d, none)) :=
  inner_final_total plainMode nonemptyMsg (fun b => rfl) rfl

/-- C5 counterexample: under a constant base hash (a legitimate
`HashingMode`), the non-empty message hop "a" receives identical `Final`
and `Inner` digests, refuting the claim as stated for every mode. -/
theorem final_inner_equal_cex :
    FinalD constMode nonemptyMsg = InnerD constMode nonemptyMsg ∧
      FinalD constMode nonemptyMsg = .ok [] ∧ InnerD constMode nonemptyMsg = .ok [] := by
  refine ⟨?_, ?_, ?_⟩
  · rfl
  · rfl
  · rfl

/-- C5 (amended): for every hop with an unpopulated root cache slot and
every mode whose base hash never collides on the framed inputs, whenever
both calls return digests the `Final` digest differs from the `Inner`
digest: the two framed byte strings agree except at the frame-marker
position, so an injective base hash separates them. -/
theorem final_ne_inner (m : Mode) (h : Hop) (df di : Bytes)
    (hinj : HashInj m) (hc : cacheOf h = none)
    (hf : FinalD m h = .ok df) (hi : InnerD m h = .ok di) : df ≠ di := by
  rw [FinalD_eq] at hf
  rw [InnerD_eq_of_uncached m h hc] at hi
  cases hcp : contentPre m h with
  | error e =>
    rw [hcp] at hf
    exact absurd hf (by simp)
  | ok pr =>
    obtain ⟨p, h2⟩ := pr
    rw [hcp] at hf hi
    dsimp only at hf hi
    cases hhf : m.Hash (align m.Alignment (p ++ [markerByte true])) with
    | none =>
      rw [hhf] at hf
      exact absurd hf (by simp)
    | some dgf =>
      rw [hhf] at hf
      cases hhi : m.Hash (align m.Alignment (p ++ [markerByte false])) with
      | none =>
        rw [hhi] at hi
        exact absurd hi (by simp)
      | some dgi =>
        rw [hhi] at hi
        simp only [Except.ok.injEq] at hf hi
        intro hde
        have hsame : m.Hash (align m.Alignment (p ++ [markerByte false])) = some dgf := by
          rw [hhi, hi, ← hde, ← hf]
        have heq := hinj _ _ _ hhf hsame
        have hlen : (p ++ [markerByte true]).length = (p ++ [markerByte false]).length := by
          simp
        have hcontra := align_len_inj m.Alignment hlen heq
        simp [markerByte] at hcontra

/-- Witness for C5 under the injective identity-like base hash. -/
theorem final_ne_inner_witness :
    FinalD plainMode nonemptyMsg = .ok [97, 1] ∧
      InnerD plainMode nonemptyMsg = .ok [97, 0] ∧ ([97, 1] : Bytes) ≠ [97, 0] :=
  ⟨rfl, rfl,
   final_ne_inner plainMode nonemptyMsg [97, 1] [97, 0]
     (fun b1 b2 d h1 h2 => (Option.some.inj h1).trans (Option.some.inj h2).symm)
     rfl rfl rfl⟩

/-- C6: `Final` never stores a chaining value into its root argument's
cache slot (the root cache is unchanged), `Inner` stores its computed
digest into the root's cache slot, and every cache value the encoder
stores is an `Inner`-computed chaining value: re-running either call on
the updated tree reproduces the same result from the stored values. -/
theorem cache_discipline (m : Mode) (h : Hop) :
    (∀ d h', Final m h = .ok (d, h') →
      cacheOf h' = cacheOf h ∧ Final m h' = .ok (d, h')) ∧
      (∀ d h', Inner m h = .ok (d, h') →
        cacheOf h' = some d ∧ Inner m h' = .ok (d, h')) :=
  ⟨fun d h' hf => ⟨Final_cache m h d h' hf, Final_stable m h d h' hf⟩,
   fun d h' hi => ⟨Inner_cache m h d h' hi, Inner_stable m h d h' hi⟩⟩

/-- Witness for C6 on a one-leaf tree with a working base hash. -/
theorem cache_discipline_witness :
    (cacheOf (Hop.message none (some [9])) = cacheOf (Hop.message none (some [9])) ∧
      Final plainMode (Hop.message none (some [9])) =
        .ok ([9, 1], Hop.message none (some [9]))) ∧
      (cacheOf (Hop.message (some [9, 0]) (some [9])) = some [9, 0] ∧
        Inner plainMode (Hop.message (some [9, 0]) (some [9])) =
          .ok ([9, 0], Hop.message (some [9, 0]) (some [9]))) :=
  ⟨(cache_discipline plainMode (Hop.message none (some [9]))).1
     [9, 1] (Hop.message none (some [9])) rfl,
   (cache_discipline plainMode (Hop.message none (some [9]))).2
     [9, 0] (Hop.message (some [9, 0]) (some [9])) rfl⟩

/-- C7: the encoder is deterministic: two calls to `Final` (or `Inner`) on
the same tree under the same mode return identical digest byte strings. -/
theorem deterministic (m1 m2 : Mode) (h1 h2 : Hop) (hm : m1 = m2) (hh : h1 = h2) :
    FinalD m1 h1 = FinalD m2 h2 ∧ InnerD m1 h1 = InnerD m2 h2 := by
  subst hm
  subst hh
  exact ⟨rfl, rfl⟩

/-- Witness for C7. -/
theorem deterministic_witness :
    FinalD plainMode nonemptyMsg = FinalD plainMode nonemptyMsg ∧
      InnerD plainMode nonemptyMsg = InnerD plainMode nonemptyMsg :=
  deterministic plainMode plainMode nonemptyMsg nonemptyMsg rfl rfl

/-- C8: every non-nil error `Inner` or `Final` returns is one of exactly
two kinds, and each originates as the spec says: a source-read failure
only arises from an unreadable message-hop stream in the tree, and a
hash-factory failure only arises from a base hash that fails on some
input. -/
theorem errors_classified (m : Mode) (h : Hop) (e : EncErr)
    (he : (innerGo m h).2 = some e ∨ (finalGo m h).2 = some e) :
    (e = .sourceReadFailed ∧ streamsOk h = false) ∨
      (e = .hashFactoryFailed ∧ ¬ HashTotal m) := by
  rcases he with he | he
  · cases hr : Inner m h with
    | ok r =>
      obtain ⟨d, h2⟩ := r
      unfold innerGo toGo at he
      rw [hr] at he
      exact absurd he (by simp)
    | error e2 =>
      unfold innerGo toGo at he
      rw [hr] at he
      simp only [Option.some.injEq] at he
      subst he
      exact Inner_err m h e2 hr
  · cases hr : Final m h with
    | ok r =>
      obtain ⟨d, h2⟩ := r
      unfold finalGo toGo at he
      rw [hr] at he
      exact absurd he (by simp)
    | error e2 =>
      unfold finalGo toGo at he
      rw [hr] at he
      simp only [Option.some.injEq] at he
      subst he
      exact Final_err m h e2 hr

/-- Witness for C8 on a hop whose stream fails to read. -/
theorem errors_classified_witness :
    (EncErr.sourceReadFailed = EncErr.sourceReadFailed ∧ streamsOk badStreamHop = false) ∨
      (EncErr.sourceReadFailed = EncErr.hashFactoryFailed ∧ ¬ HashTotal plainMode) :=
  errors_classified plainMode badStreamHop .sourceReadFailed (Or.inl rfl)

/-- C9: whenever `Inner` or `Final` returns a non-nil error, the digest it
returns is nil: no partial digest ever accompanies an error. -/
theorem no_partial_digest (m : Mode) (h : Hop) :
    (∀ e, (innerGo m h).2 = some e → (innerGo m h).1 = none) ∧
      (∀ e, (finalGo m h).2 = some e → (finalGo m h).1 = none) := by
  constructor
  · intro e he
    unfold innerGo toGo at he ⊢
    cases hr : Inner m h with
    | ok r =>
      obtain ⟨d, h2⟩ := r
      rw [hr] at he
      exact absurd he (by simp)
    | error e2 =>
      rfl
  · intro e he
    unfold finalGo toGo at he ⊢
    cases hr : Final m h with
    | ok r =>
      obtain ⟨d, h2⟩ := r
      rw [hr] at he
      exact absurd he (by simp)
    | error e2 =>
      rfl

/-- Witness for C9 on a hop whose stream fails to read. -/
theorem no_partial_digest_witness :
    (innerGo constMode badStreamHop).1 = none ∧ (finalGo constMode badStreamHop).1 = none :=
  ⟨(no_partial_digest constMode badStreamHop).1 .sourceReadFailed rfl,
   (no_partial_digest constMode badStreamHop).2 .sourceReadFailed rfl⟩

end Spec
